import Mathlib

/-!
Verification of the EdgeOne Pages Edge TTS proxy (edge-functions speech
handler).  The JavaScript source is shallowly embedded: JS strings are
modelled as `List Char` (every character that occurs in the program and in
the inputs below is a BMP scalar, so JS UTF-16 lengths agree with list
lengths), the stateful credential cache is modelled by explicit state
passing, and the concurrent batch dispatch is modelled by completion
schedules fed to an explicit model of `Promise.all`.
-/

set_option maxHeartbeats 1000000

/-- Boundary characters of the chunker split regex
`[.?!,;:\n。？！，；：\r]+` in `smartChunkText`. -/
def isBoundary (c : Char) : Bool :=
  c = '.' || c = '?' || c = '!' || c = ',' || c = ';' || c = ':' ||
  c = '\n' || c = '。' || c = '？' || c = '！' || c = '，' || c = '；' ||
  c = '：' || c = '\r'

/-- Whitespace characters recognised by the JS `String.trim` used in
`smartChunkText` (the full JS set also has exotic Unicode spaces; every
input considered below only uses these). -/
def isWs (c : Char) : Bool :=
  c = ' ' || c = '\t' || c = '\n' || c = '\r' || c = '\u000B' ||
  c = '\u000C' || c = ' ' || c = '　'

/-- JS `String.trim` on a list of characters: drop whitespace at both ends. -/
def trimWs (l : List Char) : List Char :=
  ((l.dropWhile isWs).reverse.dropWhile isWs).reverse

/-- Worker for `splitRuns`: accumulates the current maximal run (`cur`,
reversed) of characters whose `isBoundary` value equals `inB`. -/
def splitRunsGo : List Char → List Char → Bool → List (List Char)
  | [], cur, inB => if inB then [cur.reverse, []] else [cur.reverse]
  | c :: rest, cur, inB =>
    if isBoundary c = inB then splitRunsGo rest (c :: cur) inB
    else cur.reverse :: splitRunsGo rest [c] (isBoundary c)

/-- JS `text.split(/([.?!,;:\n。？！，；：\r]+)/g)`: alternating runs of
non-boundary and boundary characters; because the separator is a capture
group the separators appear in the result, and empty pieces appear at the
edges exactly as in JS. -/
def splitRuns (l : List Char) : List (List Char) := splitRunsGo l [] false

/-- The flush step of `smartChunkText`: push `currentChunk.trim()` onto the
accumulated chunk list when the trimmed chunk is non-empty. -/
def flushChunk (acc : List (List Char)) (cur : List Char) : List (List Char) :=
  if trimWs cur = [] then acc else acc ++ [trimWs cur]

/-- The greedy accumulation loop of `smartChunkText` over the split parts:
extend the current chunk while it stays within `maxLen`, otherwise flush it
and start a new chunk with the overflowing part. -/
def greedy (maxLen : Nat) : List (List Char) → List Char → List (List Char) → List (List Char)
  | [], cur, acc => flushChunk acc cur
  | part :: rest, cur, acc =>
    if cur.length + part.length ≤ maxLen then greedy maxLen rest (cur ++ part) acc
    else greedy maxLen rest part (flushChunk acc cur)

/-- Fuel-driven fixed-width slicing, the fallback loop
`for (i = 0; i < text.length; i += maxChunkLength)` of `smartChunkText`.
Fuel `text.length` suffices whenever `k ≥ 1` (the JS loop diverges for
`k = 0`, which the claims exclude). -/
def slicesF (k : Nat) : Nat → List Char → List (List Char)
  | _, [] => []
  | 0, _ :: _ => []
  | fuel + 1, c :: rest => ((c :: rest).take k) :: slicesF k fuel ((c :: rest).drop k)

/-- Fixed-width slicing of `l` into pieces of length `k`. -/
def slicesAt (k : Nat) (l : List Char) : List (List Char) := slicesF k l.length l

/-- The `smartChunkText` function of the source: sentence-boundary split,
greedy accumulation with trimmed flushes, fixed-width fallback when the
greedy pass produced no chunk, and removal of empty chunks. -/
def smartChunkText (text : List Char) (maxLen : Nat) : List (List Char) :=
  if text = [] then []
  else
    let chunks := greedy maxLen (splitRuns text) [] []
    let chunks2 := if chunks = [] ∧ 0 < text.length then slicesAt maxLen text else chunks
    chunks2.filter (fun ch => 0 < ch.length)

/-- The non-whitespace content of a character list; chunk-boundary trimming
only ever removes whitespace, so this is the preserved quantity. -/
def nonWs (l : List Char) : List Char := l.filter (fun c => !isWs c)

@[simp] theorem nonWs_nil : nonWs [] = [] := rfl

theorem nonWs_append (a b : List Char) : nonWs (a ++ b) = nonWs a ++ nonWs b := by
  simp [nonWs, List.filter_append]

theorem nonWs_dropWhile (l : List Char) : nonWs (l.dropWhile isWs) = nonWs l := by
  induction l with
  | nil => rfl
  | cons c t ih =>
    by_cases h : isWs c
    · simpa [nonWs, List.dropWhile, h] using ih
    · simp [nonWs, List.dropWhile, h]

theorem nonWs_reverse (l : List Char) : nonWs l.reverse = (nonWs l).reverse := by
  simp [nonWs, List.filter_reverse]

theorem nonWs_trimWs (l : List Char) : nonWs (trimWs l) = nonWs l := by
  simp [trimWs, nonWs_reverse, nonWs_dropWhile]

theorem splitRunsGo_flatten (l : List Char) :
    ∀ cur inB, (splitRunsGo l cur inB).flatten = cur.reverse ++ l := by
  induction l with
  | nil => intro cur inB; cases inB <;> simp [splitRunsGo]
  | cons c t ih =>
    intro cur inB
    by_cases h : isBoundary c = inB
    · simp [splitRunsGo, h, ih]
    · simp [splitRunsGo, h, ih]

theorem splitRuns_flatten (l : List Char) : (splitRuns l).flatten = l := by
  simpa using splitRunsGo_flatten l [] false

theorem flushChunk_nonWs (acc : List (List Char)) (cur : List Char) :
    nonWs (flushChunk acc cur).flatten = nonWs acc.flatten ++ nonWs cur := by
  by_cases h : trimWs cur = []
  · have hcur : nonWs cur = [] := by
      rw [← nonWs_trimWs, h]; rfl
    simp [flushChunk, h, hcur]
  · simp [flushChunk, h, nonWs_append, nonWs_trimWs]

theorem greedy_nonWs (maxLen : Nat) (parts : List (List Char)) :
    ∀ cur acc, nonWs (greedy maxLen parts cur acc).flatten =
      nonWs acc.flatten ++ nonWs cur ++ nonWs parts.flatten := by
  induction parts with
  | nil => intro cur acc; simp [greedy, flushChunk_nonWs]
  | cons part rest ih =>
    intro cur acc
    by_cases h : cur.length + part.length ≤ maxLen
    · simp [greedy, h, ih, nonWs_append, List.append_assoc]
    · simp [greedy, h, ih, flushChunk_nonWs, nonWs_append, List.append_assoc]

theorem slicesF_flatten (k : Nat) (hk : 1 ≤ k) :
    ∀ fuel l, List.length l ≤ fuel → (slicesF k fuel l).flatten = l := by
  intro fuel
  induction fuel with
  | zero =>
    intro l hl
    cases l with
    | nil => rfl
    | cons c rest => simp at hl
  | succ fuel ih =>
    intro l hl
    cases l with
    | nil => rfl
    | cons c rest =>
      have hdrop : ((c :: rest).drop k).length ≤ fuel := by
        rw [List.length_drop]
        simp only [List.length_cons] at hl ⊢
        omega
      simp [slicesF, ih _ hdrop]

theorem slicesF_len (k : Nat) :
    ∀ fuel l ch, ch ∈ slicesF k fuel l → ch.length ≤ k := by
  intro fuel
  induction fuel with
  | zero =>
    intro l ch h
    cases l with
    | nil => simp [slicesF] at h
    | cons c rest => simp [slicesF] at h
  | succ fuel ih =>
    intro l ch h
    cases l with
    | nil => simp [slicesF] at h
    | cons c rest =>
      simp only [slicesF, List.mem_cons] at h
      rcases h with h | h
      · subst h
        simp [List.length_take_le]
      · exact ih _ ch h

theorem flatten_filter_pos (l : List (List Char)) :
    (l.filter (fun ch => 0 < ch.length)).flatten = l.flatten := by
  induction l with
  | nil => rfl
  | cons x t ih =>
    by_cases h : 0 < x.length
    · simp [List.filter, h, ih]
    · have hx : x = [] := by
        have := Nat.eq_zero_of_not_pos h
        exact List.length_eq_zero.mp this
      simp [List.filter, h, hx, ih]

theorem splitRunsGo_noBoundary (l : List Char) :
    ∀ cur, (∀ c ∈ l, isBoundary c = false) → splitRunsGo l cur false = [cur.reverse ++ l] := by
  induction l with
  | nil => intro cur _; simp [splitRunsGo]
  | cons c t ih =>
    intro cur h
    have hc : isBoundary c = false := h c (List.mem_cons_self c t)
    have ht : ∀ d ∈ t, isBoundary d = false := fun d hd => h d (List.mem_cons_of_mem c hd)
    simp [splitRunsGo, hc, ih (c :: cur) ht]

theorem splitRuns_noBoundary (l : List Char) (h : ∀ c ∈ l, isBoundary c = false) :
    splitRuns l = [l] := by
  simpa using splitRunsGo_noBoundary l [] h

theorem greedy_single (maxLen : Nat) (t : List Char) :
    greedy maxLen [t] [] [] = if trimWs t = [] then [] else [trimWs t] := by
  by_cases h : 0 + t.length ≤ maxLen
  · simp [greedy, h, flushChunk, trimWs]
  · simp [greedy, h, flushChunk, trimWs]

/-- C7: for every non-empty input text and every maxLen ≥ 1, the chunker
returns no empty chunk, and the concatenation of the chunks preserves the
non-whitespace content of the input in order (chunk-boundary trimming only
removes whitespace). -/
theorem c7_chunk_reconstruction (text : List Char) (maxLen : Nat) (ch : List Char)
    (hk : 1 ≤ maxLen) (hne : text ≠ []) :
    (ch ∈ smartChunkText text maxLen → ch ≠ []) ∧
    nonWs (smartChunkText text maxLen).flatten = nonWs text := by
  have hgr : nonWs (greedy maxLen (splitRuns text) [] []).flatten = nonWs text := by
    have h := greedy_nonWs maxLen (splitRuns text) [] []
    simpa [splitRuns_flatten] using h
  constructor
  · intro hmem
    simp only [smartChunkText, if_neg hne, List.mem_filter] at hmem
    rcases hmem with ⟨_, hpos⟩
    intro hnil
    subst hnil
    simp at hpos
  · simp only [smartChunkText, if_neg hne]
    by_cases hc : greedy maxLen (splitRuns text) [] [] = []
    · have htext : nonWs text = [] := by rw [← hgr, hc]; rfl
      have hpos : 0 < text.length := List.length_pos.mpr hne
      rw [if_pos ⟨hc, hpos⟩, flatten_filter_pos,
        show slicesAt maxLen text = slicesF maxLen text.length text from rfl,
        slicesF_flatten maxLen hk text.length text (le_refl _), htext]
    · rw [if_neg (fun h => hc h.1), flatten_filter_pos, hgr]

/-- C7 witness: the theorem applied at text "a,b" with maxLen 1. -/
theorem c7_chunk_reconstruction_witness :
    ((['a'] : List Char) ∈ smartChunkText "a,b".toList 1 → (['a'] : List Char) ≠ []) ∧
    nonWs (smartChunkText "a,b".toList 1).flatten = nonWs "a,b".toList :=
  c7_chunk_reconstruction "a,b".toList 1 ['a'] (by decide) (by decide)

/-- C4 counterexample: the input "abc" contains no boundary character, yet
for maxLen = 1 the chunker does not fall back to fixed-width slicing: it
returns the single chunk "abc" of length 3 > 1. -/
theorem c4_counterexample :
    (∀ c ∈ ("abc".toList : List Char), isBoundary c = false) ∧
    ∃ ch ∈ smartChunkText "abc".toList 1, 1 < ch.length := by
  decide

/-- C4 amended: for non-empty no-boundary text, the fallback fixed-width
slicing is used only when the greedy pass produced no chunk, which for
no-boundary text means the text trims to nothing (whitespace-only); in that
case every returned chunk has length ≤ maxLen. Otherwise the greedy path
emits the single chunk trim(text), whose length may exceed maxLen. -/
theorem c4_fallback_bound (text : List Char) (maxLen : Nat) (ch : List Char)
    (_hk : 1 ≤ maxLen) (hne : text ≠ []) (hnb : ∀ c ∈ text, isBoundary c = false) :
    (trimWs text = [] → ch ∈ smartChunkText text maxLen → ch.length ≤ maxLen) ∧
    (trimWs text ≠ [] → smartChunkText text maxLen = [trimWs text]) := by
  have hgr : greedy maxLen (splitRuns text) [] [] = if trimWs text = [] then [] else [trimWs text] := by
    rw [splitRuns_noBoundary text hnb]
    exact greedy_single maxLen text
  constructor
  · intro htr hmem
    rw [htr] at hgr
    simp only [smartChunkText, if_neg hne, hgr, if_pos rfl, List.length_pos.mpr hne, and_true,
      List.mem_filter, if_pos] at hmem
    rcases hmem with ⟨hmem, _⟩
    exact slicesF_len maxLen text.length text ch hmem
  · intro htr
    rw [if_neg htr] at hgr
    have hpos : 0 < (trimWs text).length := List.length_pos.mpr htr
    simp [smartChunkText, if_neg hne, hgr, hpos]

/-- C4 witness of the amended claim: whitespace-only text "   " with
maxLen 2 goes through the fallback and every chunk is within the bound. -/
theorem c4_fallback_bound_witness :
    (trimWs "   ".toList = [] → ([' ', ' '] : List Char) ∈ smartChunkText "   ".toList 2 →
      ([' ', ' '] : List Char).length ≤ 2) ∧
    (trimWs "   ".toList ≠ [] → smartChunkText "   ".toList 2 = [trimWs "   ".toList]) :=
  c4_fallback_bound "   ".toList 2 [' ', ' '] (by decide) (by decide) (by decide)

/-- C8 counterexample: on the input "Hello, world. Second sentence!" with
chunk_size 10 the chunker does not return the claimed sequence
["Hello,", "world.", "Second", "sentence!"]. -/
theorem c8_counterexample :
    smartChunkText "Hello, world. Second sentence!".toList 10 ≠
      ["Hello,".toList, "world.".toList, "Second".toList, "sentence!".toList] := by
  decide

/-- C8 amended: on that input the chunker returns exactly
["Hello,", "world.", "Second sentence", "!"] in that order (the greedy pass
keeps " Second sentence" whole because no boundary splits it, and the final
"!" run becomes its own chunk). -/
theorem c8_exact_chunks :
    smartChunkText "Hello, world. Second sentence!".toList 10 =
      ["Hello,".toList, "world.".toList, "Second sentence".toList, "!".toList] := by
  decide

section Orchestrator

universe u v w

variable {τ : Type u} {α : Type v} {ε : Type w}

/-- Events observable at the orchestrator boundary: a synthesis call being
issued for a chunk, a sink write being attempted (with the Bool recording
whether that write would succeed — the source discards this result), and the
abort and close signals sent to the sink writer. -/
inductive Ev (τ : Type u) (α : Type v) : Type (max u v) where
  | call : τ → Ev τ α
  | write : α → Bool → Ev τ α
  | abortSig : Ev τ α
  | closeSig : Ev τ α
deriving DecidableEq

/-- Fuel-driven version of the window partition
`for (i = 0; i < chunks.length; i += concurrency) chunks.slice(i, i + concurrency)`.
Fuel `l.length` suffices whenever `C ≥ 1` (the JS loop diverges for `C = 0`,
which the claims exclude). -/
def batchesF (C : Nat) : Nat → List τ → List (List τ)
  | _, [] => []
  | 0, _ :: _ => []
  | fuel + 1, x :: rest => ((x :: rest).take C) :: batchesF C fuel ((x :: rest).drop C)

/-- Partition of the chunk list into consecutive windows of at most `C` chunks. -/
def batches (C : Nat) (l : List τ) : List (List τ) := batchesF C l.length l

/-- First rejection among the settled results `rs` in completion order
`sched` — the rejection that `Promise.all` reports. -/
def firstErr (rs : List (Except ε α)) : List Nat → Option ε
  | [] => none
  | i :: rest =>
    match rs[i]? with
    | some (Except.error e) => some e
    | _ => firstErr rs rest

/-- One completion step of the `Promise.all` slot model: the promise at
index `i` stores its value into slot `i`. -/
def fillStep (rs : List (Except ε α)) (acc : List (Option α)) (i : Nat) : List (Option α) :=
  match rs[i]? with
  | some (Except.ok a) => acc.set i (some a)
  | _ => acc

/-- Slots after all completions in `sched` order. -/
def fillSlots (rs : List (Except ε α)) (sched : List Nat) : List (Option α) :=
  sched.foldl (fillStep rs) (List.replicate rs.length none)

/-- Sequence a list of options; fails when some slot was never filled. -/
def allSome : List (Option α) → Option (List α)
  | [] => some []
  | none :: _ => none
  | some a :: rest => (allSome rest).map (fun l => a :: l)

/-- Model of `Promise.all` over settled per-promise results `rs`, with
`sched` the order in which the promises complete: it rejects with the first
error to complete, otherwise resolves with the slot array read in index
order. `none` models a join that never settles, impossible when `sched` is
a permutation of all indices. -/
def promiseAll (rs : List (Except ε α)) (sched : List Nat) : Option (Except ε (List α)) :=
  match firstErr rs sched with
  | some e => some (Except.error e)
  | none => (allSome (fillSlots rs sched)).map Except.ok

theorem batchesF_flatten (C : Nat) (hC : 1 ≤ C) :
    ∀ fuel (l : List τ), l.length ≤ fuel → (batchesF C fuel l).flatten = l := by
  intro fuel
  induction fuel with
  | zero =>
    intro l hl
    cases l with
    | nil => rfl
    | cons x rest => simp at hl
  | succ fuel ih =>
    intro l hl
    cases l with
    | nil => rfl
    | cons x rest =>
      have hdrop : ((x :: rest).drop C).length ≤ fuel := by
        rw [List.length_drop]
        simp only [List.length_cons] at hl ⊢
        omega
      simp [batchesF, ih _ hdrop]

theorem batches_flatten (C : Nat) (hC : 1 ≤ C) (l : List τ) :
    (batches C l).flatten = l :=
  batchesF_flatten C hC l.length l (le_refl _)

theorem ceil_div_step (n C : Nat) (hC : 1 ≤ C) (hn : 1 ≤ n) :
    (n - C + C - 1) / C + 1 = (n + C - 1) / C := by
  by_cases h : C ≤ n
  · have e1 : n - C + C - 1 = n - 1 := by omega
    have e2 : n + C - 1 = (n - 1) + C := by omega
    rw [e1, e2, Nat.add_div_right _ (by omega : 0 < C)]
  · have e1 : n - C + C - 1 = C - 1 := by omega
    have e2 : n + C - 1 = (n - 1) + C := by omega
    rw [e1, e2, Nat.add_div_right _ (by omega : 0 < C),
      Nat.div_eq_of_lt (by omega : C - 1 < C), Nat.div_eq_of_lt (by omega : n - 1 < C)]

theorem batchesF_length (C : Nat) (hC : 1 ≤ C) :
    ∀ fuel (l : List τ), l.length ≤ fuel →
      (batchesF C fuel l).length = (l.length + C - 1) / C := by
  intro fuel
  induction fuel with
  | zero =>
    intro l hl
    cases l with
    | nil =>
      simp [batchesF, Nat.div_eq_of_lt (by omega : C - 1 < C)]
    | cons x rest => simp at hl
  | succ fuel ih =>
    intro l hl
    cases l with
    | nil =>
      simp [batchesF, Nat.div_eq_of_lt (by omega : C - 1 < C)]
    | cons x rest =>
      have hdrop : ((x :: rest).drop C).length ≤ fuel := by
        rw [List.length_drop]
        simp only [List.length_cons] at hl ⊢
        omega
      have hlen : ((x :: rest).drop C).length = rest.length + 1 - C := by
        rw [List.length_drop]; simp
      have hkey := ceil_div_step (rest.length + 1) C hC (by omega)
      calc (batchesF C (fuel + 1) (x :: rest)).length
          = (batchesF C fuel ((x :: rest).drop C)).length + 1 := by
            simp [batchesF]
        _ = (rest.length + 1 - C + C - 1) / C + 1 := by rw [ih _ hdrop, hlen]
        _ = (rest.length + 1 + C - 1) / C := hkey
        _ = ((x :: rest).length + C - 1) / C := by simp

theorem batches_length (C : Nat) (hC : 1 ≤ C) (l : List τ) :
    (batches C l).length = (l.length + C - 1) / C :=
  batchesF_length C hC l.length l (le_refl _)

theorem fillStep_ok_none (vs : List α) (acc : List (Option α)) (i : Nat)
    (h : vs[i]? = none) :
    fillStep (vs.map (Except.ok : α → Except ε α)) acc i = acc := by
  simp [fillStep, List.getElem?_map, h]

theorem fillStep_ok_some (vs : List α) (acc : List (Option α)) (i : Nat) (a : α)
    (h : vs[i]? = some a) :
    fillStep (vs.map (Except.ok : α → Except ε α)) acc i = acc.set i (some a) := by
  simp [fillStep, List.getElem?_map, h]

theorem foldl_fillStep_get (vs : List α) (sched : List Nat) :
    ∀ (acc : List (Option α)) (j : Nat), acc.length = vs.length →
      (sched.foldl (fillStep (vs.map (Except.ok : α → Except ε α))) acc)[j]? =
        if j ∈ sched ∧ j < vs.length then (vs[j]?).map some else acc[j]? := by
  induction sched with
  | nil => intro acc j _; simp
  | cons i rest ih =>
    intro acc j hacc
    cases hvi : vs[i]? with
    | none =>
      have hub : vs.length ≤ i := List.getElem?_eq_none_iff.mp hvi
      rw [List.foldl_cons, fillStep_ok_none vs acc i hvi, ih acc j hacc]
      by_cases hjr : j ∈ rest ∧ j < vs.length
      · simp [hjr, List.mem_cons]
      · rw [if_neg hjr, if_neg]
        intro hcon
        rcases hcon with ⟨hmem, hlt⟩
        rcases List.mem_cons.mp hmem with h | h
        · omega
        · exact hjr ⟨h, hlt⟩
    | some a =>
      have hlt : i < vs.length := by
        rcases List.getElem?_eq_some_iff.mp hvi with ⟨h, _⟩
        exact h
      have hacc2 : (acc.set i (some a)).length = vs.length := by
        rw [List.length_set]; exact hacc
      rw [List.foldl_cons, fillStep_ok_some vs acc i a hvi, ih _ j hacc2]
      by_cases hjr : j ∈ rest ∧ j < vs.length
      · simp [hjr, List.mem_cons]
      · rw [if_neg hjr]
        by_cases hji : j = i
        · subst hji
          rw [List.getElem?_set_self (by omega : j < acc.length),
            if_pos ⟨List.mem_cons_self j rest, hlt⟩, hvi]
          rfl
        · rw [List.getElem?_set_ne (fun h => hji h.symm), if_neg]
          intro hcon
          rcases hcon with ⟨hmem, hlt2⟩
          rcases List.mem_cons.mp hmem with h | h
          · exact hji h
          · exact hjr ⟨h, hlt2⟩

theorem fillSlots_ok (vs : List α) (sched : List Nat)
    (hperm : List.Perm sched (List.range vs.length)) :
    fillSlots (vs.map (Except.ok : α → Except ε α)) sched = vs.map some := by
  apply List.ext_getElem?
  intro j
  have hlen : (List.replicate (vs.map (Except.ok : α → Except ε α)).length
      (none : Option α)).length = vs.length := by simp
  rw [fillSlots, foldl_fillStep_get vs sched _ j hlen]
  by_cases hj : j < vs.length
  · have hmem : j ∈ sched := hperm.mem_iff.mpr (List.mem_range.mpr hj)
    rw [if_pos ⟨hmem, hj⟩, List.getElem?_map]
  · rw [if_neg (fun h => hj h.2),
      List.getElem?_eq_none (by simpa using Nat.le_of_not_lt hj),
      List.getElem?_eq_none (by simpa using Nat.le_of_not_lt hj)]

theorem allSome_map_some (l : List α) : allSome (l.map some) = some l := by
  induction l with
  | nil => rfl
  | cons a t ih => simp [allSome, ih]

theorem firstErr_map_ok (vs : List α) :
    ∀ sched, firstErr (vs.map (Except.ok : α → Except ε α)) sched = (none : Option ε) := by
  intro sched
  induction sched with
  | nil => rfl
  | cons i rest ih =>
    cases h : vs[i]? with
    | none => simp [firstErr, List.getElem?_map, h, ih]
    | some a => simp [firstErr, List.getElem?_map, h, ih]

theorem promiseAll_map_ok (vs : List α) (sched : List Nat)
    (hperm : List.Perm sched (List.range vs.length)) :
    promiseAll (vs.map (Except.ok : α → Except ε α)) sched = some (Except.ok vs) := by
  simp [promiseAll, firstErr_map_ok, fillSlots_ok vs sched hperm, allSome_map_some]

theorem firstErr_isSome_of_mem (rs : List (Except ε α)) (i : Nat) (e : ε) :
    ∀ sched, i ∈ sched → rs[i]? = some (Except.error e) →
      ∃ e2, firstErr rs sched = some e2 := by
  intro sched
  induction sched with
  | nil => intro h _; simp at h
  | cons j rest ih =>
    intro hmem he
    cases hj : rs[j]? with
    | none =>
      have hstep : firstErr rs (j :: rest) = firstErr rs rest := by simp [firstErr, hj]
      rw [hstep]
      rcases List.mem_cons.mp hmem with h | h
      · subst h; simp [he] at hj
      · exact ih h he
    | some r =>
      cases r with
      | error e2 => exact ⟨e2, by simp [firstErr, hj]⟩
      | ok a =>
        have hstep : firstErr rs (j :: rest) = firstErr rs rest := by simp [firstErr, hj]
        rw [hstep]
        rcases List.mem_cons.mp hmem with h | h
        · subst h; simp [he] at hj
        · exact ih h he

theorem exists_map_ok (rs : List (Except ε α))
    (h : ∀ r ∈ rs, ∃ a, r = Except.ok a) : ∃ vs : List α, rs = vs.map Except.ok := by
  induction rs with
  | nil => exact ⟨[], rfl⟩
  | cons r rest ih =>
    rcases h r (List.mem_cons_self r rest) with ⟨a, ha⟩
    rcases ih (fun x hx => h x (List.mem_cons_of_mem r hx)) with ⟨vs, hvs⟩
    exact ⟨a :: vs, by rw [ha, hvs]; rfl⟩

theorem promiseAll_total (rs : List (Except ε α)) (sched : List Nat)
    (hperm : List.Perm sched (List.range rs.length)) :
    ∃ r, promiseAll rs sched = some r := by
  rcases Classical.em (∃ i : Nat, ∃ e : ε, rs[i]? = some (Except.error e)) with herr | herr
  · rcases herr with ⟨i, e, he⟩
    have hi : i < rs.length := by
      rcases List.getElem?_eq_some_iff.mp he with ⟨h, _⟩
      exact h
    have hmem : i ∈ sched := hperm.mem_iff.mpr (List.mem_range.mpr hi)
    rcases firstErr_isSome_of_mem rs i e sched hmem he with ⟨e2, he2⟩
    exact ⟨Except.error e2, by simp [promiseAll, he2]⟩
  · push_neg at herr
    have hall : ∀ r ∈ rs, ∃ a, r = Except.ok a := by
      intro r hr
      cases hcase : r with
      | ok a => exact ⟨a, rfl⟩
      | error e =>
        rcases List.getElem?_of_mem hr with ⟨n, hn⟩
        rw [hcase] at hn
        exact absurd hn (herr n e)
    rcases exists_map_ok rs hall with ⟨vs, hvs⟩
    subst hvs
    have hperm2 : List.Perm sched (List.range vs.length) := by simpa using hperm
    exact ⟨_, promiseAll_map_ok vs sched hperm2⟩

/-- The batch loop of the buffered `getVoice`: windows strictly in sequence,
one synthesis call issued per chunk of the window, joined with
`promiseAll`; the `Promise.all` results of the window are appended to the
ordered accumulator (the JS `allAudioBlobs.push(...audioBlobs)`); a window
failure is caught and becomes the error response, discarding the
accumulator. The trace records every synthesis call issued. -/
def getVoiceAux (synth : τ → Except ε α) :
    List (List τ) → List (List Nat) → List α → List (Ev τ α) →
      List (Ev τ α) × Option (Except ε (List α))
  | [], _, acc, tr => (tr, some (Except.ok acc))
  | b :: bs, scheds, acc, tr =>
    match scheds with
    | [] => (tr ++ b.map Ev.call, none)
    | s :: ss =>
      match promiseAll (b.map synth) s with
      | none => (tr ++ b.map Ev.call, none)
      | some (Except.error e) => (tr ++ b.map Ev.call, some (Except.error e))
      | some (Except.ok l) => getVoiceAux synth bs ss (acc ++ l) (tr ++ b.map Ev.call)

/-- Buffered-mode orchestrator `getVoice` of the source, parameterized by
the per-window completion schedules. -/
def getVoice (C : Nat) (synth : τ → Except ε α) (chunks : List τ)
    (scheds : List (List Nat)) : List (Ev τ α) × Option (Except ε (List α)) :=
  getVoiceAux synth (batches C chunks) scheds [] []

/-- The write loop `for (const blob of audioBlobs) writer.write(...)`:
one write event per payload; the write result (`writeOk`) is recorded in
the trace but — exactly as in the source, which does not await or inspect
the promise returned by `writer.write` — it influences nothing. -/
def writeEvents (writeOk : Nat → Bool) : Nat → List α → List (Ev τ α)
  | _, [] => []
  | n, a :: rest => Ev.write a (writeOk n) :: writeEvents writeOk (n + 1) rest

/-- The batch loop of the streamed `pipeChunksToStream`: windows strictly
in sequence; after a window resolves its payloads are written to the sink
in chunk order; a window (synthesis) failure is caught, aborts the writer
and rethrows; the `finally` clause closes the writer on every settled exit
path. -/
def pipeAux (synth : τ → Except ε α) (writeOk : Nat → Bool) :
    List (List τ) → List (List Nat) → Nat → List (Ev τ α) →
      List (Ev τ α) × Option (Except ε Unit)
  | [], _, _, tr => (tr ++ [Ev.closeSig], some (Except.ok ()))
  | b :: bs, scheds, n, tr =>
    match scheds with
    | [] => (tr ++ b.map Ev.call, none)
    | s :: ss =>
      match promiseAll (b.map synth) s with
      | none => (tr ++ b.map Ev.call, none)
      | some (Except.error e) =>
        (tr ++ b.map Ev.call ++ [Ev.abortSig, Ev.closeSig], some (Except.error e))
      | some (Except.ok l) =>
        pipeAux synth writeOk bs ss (n + l.length)
          (tr ++ b.map Ev.call ++ writeEvents writeOk n l)

/-- Streamed-mode orchestrator `pipeChunksToStream` of the source,
parameterized by the per-window completion schedules and by which sink
writes would succeed. -/
def pipeChunksToStream (C : Nat) (synth : τ → Except ε α) (writeOk : Nat → Bool)
    (chunks : List τ) (scheds : List (List Nat)) :
    List (Ev τ α) × Option (Except ε Unit) :=
  pipeAux synth writeOk (batches C chunks) scheds 0 []

/-- Payloads delivered to the sink, in trace order. -/
def writesOf : List (Ev τ α) → List α
  | [] => []
  | Ev.write a _ :: rest => a :: writesOf rest
  | Ev.call _ :: rest => writesOf rest
  | Ev.abortSig :: rest => writesOf rest
  | Ev.closeSig :: rest => writesOf rest

/-- Erase the success flags of write events (the flags are invisible to the
source, which discards the promise returned by `writer.write`). -/
def stripFlags : List (Ev τ α) → List (Ev τ α) :=
  List.map (fun e =>
    match e with
    | Ev.write a _ => Ev.write a true
    | x => x)

theorem writesOf_append (t1 t2 : List (Ev τ α)) :
    writesOf (t1 ++ t2) = writesOf t1 ++ writesOf t2 := by
  induction t1 with
  | nil => rfl
  | cons e rest ih => cases e <;> simp [writesOf, ih]

theorem writesOf_calls (b : List τ) :
    writesOf ((b.map Ev.call : List (Ev τ α))) = [] := by
  induction b with
  | nil => rfl
  | cons c rest ih => simpa [writesOf] using ih

theorem writesOf_writeEvents (writeOk : Nat → Bool) (l : List α) :
    ∀ n, writesOf (writeEvents writeOk n l : List (Ev τ α)) = l := by
  induction l with
  | nil => intro n; rfl
  | cons a rest ih => intro n; simp [writeEvents, writesOf, ih]

theorem stripFlags_append (t1 t2 : List (Ev τ α)) :
    stripFlags (t1 ++ t2) = stripFlags t1 ++ stripFlags t2 := by
  simp [stripFlags]

theorem stripFlags_writeEvents (writeOk writeOk' : Nat → Bool) (l : List α) :
    ∀ n n', stripFlags (writeEvents writeOk n l : List (Ev τ α)) =
      stripFlags (writeEvents writeOk' n' l) := by
  induction l with
  | nil => intro n n'; rfl
  | cons a rest ih => intro n n'; simp [writeEvents, stripFlags]; exact ih (n + 1) (n' + 1)

theorem stripFlags_calls (b : List τ) :
    stripFlags ((b.map Ev.call : List (Ev τ α))) = b.map Ev.call := by
  induction b with
  | nil => rfl
  | cons c rest ih => simp [stripFlags]

theorem getVoiceAux_all_ok (synth : τ → Except ε α) (f : τ → α)
    (hsynth : ∀ c, synth c = Except.ok (f c)) :
    ∀ (bs : List (List τ)) (ss : List (List Nat)),
      List.Forall₂ (fun (b : List τ) (s : List Nat) => List.Perm s (List.range b.length)) bs ss →
      ∀ acc tr, getVoiceAux synth bs ss acc tr =
        (tr ++ bs.flatten.map Ev.call, some (Except.ok (acc ++ bs.flatten.map f))) := by
  intro bs ss h
  induction h with
  | nil => intro acc tr; simp [getVoiceAux]
  | cons hbs hrest ih =>
    rename_i b s bs' ss'
    intro acc tr
    have hsfun : synth = fun c => Except.ok (f c) := funext hsynth
    have hmap : b.map synth = (b.map f).map Except.ok := by
      rw [hsfun, List.map_map]
      rfl
    have hperm2 : List.Perm s (List.range (b.map f).length) := by simpa using hbs
    simp only [getVoiceAux, hmap, promiseAll_map_ok (b.map f) s hperm2, ih,
      List.flatten_cons, List.map_append, List.append_assoc]

theorem pipeAux_all_ok (synth : τ → Except ε α) (f : τ → α)
    (hsynth : ∀ c, synth c = Except.ok (f c)) (writeOk : Nat → Bool) :
    ∀ (bs : List (List τ)) (ss : List (List Nat)),
      List.Forall₂ (fun (b : List τ) (s : List Nat) => List.Perm s (List.range b.length)) bs ss →
      ∀ n tr,
        (pipeAux synth writeOk bs ss n tr).2 = some (Except.ok ()) ∧
        writesOf (pipeAux synth writeOk bs ss n tr).1 = writesOf tr ++ bs.flatten.map f := by
  intro bs ss h
  induction h with
  | nil =>
    intro n tr
    refine ⟨rfl, ?_⟩
    simp [pipeAux, writesOf_append, writesOf]
  | cons hbs hrest ih =>
    rename_i b s bs' ss'
    intro n tr
    have hsfun : synth = fun c => Except.ok (f c) := funext hsynth
    have hmap : b.map synth = (b.map f).map Except.ok := by
      rw [hsfun, List.map_map]
      rfl
    have hperm2 : List.Perm s (List.range (b.map f).length) := by simpa using hbs
    have hrec := ih (n + (b.map f).length) (tr ++ b.map Ev.call ++ writeEvents writeOk n (b.map f))
    constructor
    · simp only [pipeAux, hmap, promiseAll_map_ok (b.map f) s hperm2]
      exact hrec.1
    · simp only [pipeAux, hmap, promiseAll_map_ok (b.map f) s hperm2]
      rw [hrec.2, writesOf_append, writesOf_append, writesOf_calls, writesOf_writeEvents]
      simp [List.append_assoc]

theorem getVoiceAux_error (synth : τ → Except ε α) :
    ∀ (bs : List (List τ)) (ss : List (List Nat)),
      List.Forall₂ (fun (b : List τ) (s : List Nat) => List.Perm s (List.range b.length)) bs ss →
      (∃ b ∈ bs, ∃ c ∈ b, ∃ e : ε, synth c = Except.error e) →
      ∀ acc tr, ∃ e2, (getVoiceAux synth bs ss acc tr).2 = some (Except.error e2) := by
  intro bs ss h
  induction h with
  | nil =>
    intro hex acc tr
    rcases hex with ⟨b, hb, _⟩
    simp at hb
  | cons hbs hrest ih =>
    rename_i b s bs' ss'
    intro hex acc tr
    rcases Classical.em (∃ c ∈ b, ∃ e : ε, synth c = Except.error e) with hec | hec
    · rcases hec with ⟨c, hcb, e, hce⟩
      rcases List.getElem?_of_mem hcb with ⟨i, hi⟩
      have hrs : (b.map synth)[i]? = some (Except.error e) := by
        rw [List.getElem?_map, hi]
        simp [hce]
      have hilt : i < b.length := by
        rcases List.getElem?_eq_some_iff.mp hi with ⟨h, _⟩
        exact h
      have hmem : i ∈ s := hbs.mem_iff.mpr (List.mem_range.mpr hilt)
      rcases firstErr_isSome_of_mem (b.map synth) i e s hmem hrs with ⟨e2, he2⟩
      refine ⟨e2, ?_⟩
      simp [getVoiceAux, promiseAll, he2]
    · have hall : ∀ r ∈ b.map synth, ∃ a, r = Except.ok a := by
        intro r hr
        rcases List.mem_map.mp hr with ⟨c, hcb, hcr⟩
        cases hsc : synth c with
        | ok a => exact ⟨a, by rw [← hcr, hsc]⟩
        | error e => exact absurd ⟨c, hcb, e, hsc⟩ hec
      rcases exists_map_ok (b.map synth) hall with ⟨vs, hvs⟩
      have hlen : vs.length = b.length := by
        have hl := congrArg List.length hvs
        simpa using hl.symm
      have hperm2 : List.Perm s (List.range vs.length) := by rw [hlen]; exact hbs
      have hpa : promiseAll (b.map synth) s = some (Except.ok vs) := by
        rw [hvs]
        exact promiseAll_map_ok vs s hperm2
      have hex' : ∃ b2 ∈ bs', ∃ c ∈ b2, ∃ e : ε, synth c = Except.error e := by
        rcases hex with ⟨b2, hb2, c, hcb2, e, hce⟩
        rcases List.mem_cons.mp hb2 with hcase | hcase
        · subst hcase
          exact absurd ⟨c, hcb2, e, hce⟩ hec
        · exact ⟨b2, hcase, c, hcb2, e, hce⟩
      rcases ih hex' (acc ++ vs) (tr ++ b.map Ev.call) with ⟨e2, he2⟩
      refine ⟨e2, ?_⟩
      simpa [getVoiceAux, hpa] using he2

theorem pipeAux_write_irrelevant (synth : τ → Except ε α) (w w' : Nat → Bool) :
    ∀ (bs : List (List τ)) (ss : List (List Nat)),
      List.Forall₂ (fun (b : List τ) (s : List Nat) => List.Perm s (List.range b.length)) bs ss →
      ∀ n tr tr', stripFlags tr = stripFlags tr' →
        (pipeAux synth w bs ss n tr).2 = (pipeAux synth w' bs ss n tr').2 ∧
        stripFlags (pipeAux synth w bs ss n tr).1 = stripFlags (pipeAux synth w' bs ss n tr').1 ∧
        ∃ pre, (pipeAux synth w bs ss n tr).1 = pre ++ [Ev.closeSig] := by
  intro bs ss h
  induction h with
  | nil =>
    intro n tr tr' htr
    refine ⟨rfl, ?_, ⟨tr, rfl⟩⟩
    simp only [pipeAux]
    rw [stripFlags_append, stripFlags_append, htr]
  | cons hbs hrest ih =>
    rename_i b s bs' ss'
    intro n tr tr' htr
    rcases promiseAll_total (b.map synth) s (by simpa using hbs) with ⟨r, hr⟩
    cases r with
    | error e =>
      refine ⟨by simp [pipeAux, hr], ?_, ?_⟩
      · simp only [pipeAux, hr]
        rw [stripFlags_append, stripFlags_append, stripFlags_append, stripFlags_append, htr]
      · exact ⟨tr ++ b.map Ev.call ++ [Ev.abortSig], by simp [pipeAux, hr]⟩
    | ok l =>
      have htr2 : stripFlags (tr ++ b.map Ev.call ++ writeEvents w n l) =
          stripFlags (tr' ++ b.map Ev.call ++ writeEvents w' n l) := by
        rw [stripFlags_append, stripFlags_append, stripFlags_append, stripFlags_append, htr,
          stripFlags_writeEvents w w' l n n]
      have hrec := ih (n + l.length) (tr ++ b.map Ev.call ++ writeEvents w n l)
        (tr' ++ b.map Ev.call ++ writeEvents w' n l) htr2
      simpa [pipeAux, hr] using hrec

/-- C1: for chunk list N and concurrencyLimit C ≥ 1, both orchestrators
partition the chunks into exactly ceil(N / C) = (N + C - 1) / C consecutive
windows (the windows concatenate back to the chunk list), and — for every
admissible completion order of the synthesis calls inside each window —
the buffered output and the streamed sink writes are exactly the per-chunk
synthesis results in original chunk order. -/
theorem c1_windows_and_order (chunks : List τ) (C : Nat) (f : τ → α)
    (synth : τ → Except ε α) (scheds : List (List Nat)) (writeOk : Nat → Bool)
    (hC : 1 ≤ C) (hsynth : ∀ c, synth c = Except.ok (f c))
    (hs : List.Forall₂ (fun (b : List τ) (s : List Nat) => List.Perm s (List.range b.length))
      (batches C chunks) scheds) :
    (batches C chunks).length = (chunks.length + C - 1) / C ∧
    (batches C chunks).flatten = chunks ∧
    (getVoice C synth chunks scheds).2 = some (Except.ok (chunks.map f)) ∧
    (pipeChunksToStream C synth writeOk chunks scheds).2 = some (Except.ok ()) ∧
    writesOf (pipeChunksToStream C synth writeOk chunks scheds).1 = chunks.map f := by
  have hflat := batches_flatten C hC chunks
  have hpipe := pipeAux_all_ok synth f hsynth writeOk (batches C chunks) scheds hs 0 []
  refine ⟨batches_length C hC chunks, hflat, ?_, ?_, ?_⟩
  · rw [getVoice, getVoiceAux_all_ok synth f hsynth (batches C chunks) scheds hs [] [], hflat]
    simp
  · exact hpipe.1
  · simp only [pipeChunksToStream]
    rw [hpipe.2, hflat]
    simp [writesOf]

/-- C1 witness: three chunks, concurrency 2, with the first window
completing out of order (schedule [1, 0]). -/
theorem c1_windows_and_order_witness :
    (batches 2 [['a'], ['b'], ['c']]).length = (([['a'], ['b'], ['c']] : List (List Char)).length + 2 - 1) / 2 ∧
    (batches 2 [['a'], ['b'], ['c']]).flatten = [['a'], ['b'], ['c']] ∧
    (getVoice 2 (Except.ok : List Char → Except Unit (List Char)) [['a'], ['b'], ['c']]
      [[1, 0], [0]]).2 = some (Except.ok ([['a'], ['b'], ['c']].map id)) ∧
    (pipeChunksToStream 2 (Except.ok : List Char → Except Unit (List Char)) (fun _ => true)
      [['a'], ['b'], ['c']] [[1, 0], [0]]).2 = some (Except.ok ()) ∧
    writesOf (pipeChunksToStream 2 (Except.ok : List Char → Except Unit (List Char)) (fun _ => true)
      [['a'], ['b'], ['c']] [[1, 0], [0]]).1 = [['a'], ['b'], ['c']].map id :=
  c1_windows_and_order [['a'], ['b'], ['c']] 2 id
    (Except.ok : List Char → Except Unit (List Char)) [[1, 0], [0]] (fun _ => true)
    (by decide) (fun _ => rfl)
    (by refine List.Forall₂.cons ?_ (List.Forall₂.cons ?_ List.Forall₂.nil) <;> decide)

/-- C3 counterexample: streamed mode with two one-chunk windows where every
sink write fails. The trace shows the synthesis call for the second chunk
being issued after the first write already failed, and the run still ends
with a successful result — the write failure is not awaited, so it neither
propagates nor aborts the remaining windows, contradicting the claim. The
close signal is still emitted. -/
theorem c3_counterexample :
    (pipeChunksToStream 1 (fun c => (Except.ok c : Except Unit (List Char))) (fun _ => false)
      [['a'], ['b']] [[0], [0]]).1 =
      [Ev.call ['a'], Ev.write ['a'] false, Ev.call ['b'], Ev.write ['b'] false, Ev.closeSig] ∧
    (pipeChunksToStream 1 (fun c => (Except.ok c : Except Unit (List Char))) (fun _ => false)
      [['a'], ['b']] [[0], [0]]).2 = some (Except.ok ()) :=
  ⟨rfl, rfl⟩

/-- C3 amended: the result of `writer.write` is discarded by the source, so
sink-write failures are invisible: the orchestrator result and the trace
(modulo the invisible success flags) are identical whatever writes fail,
and no write failure stops later synthesis calls; a close signal is sent to
the sink on every settled exit path (only a synthesis failure aborts). -/
theorem c3_sink_behaviour (chunks : List τ) (C : Nat) (synth : τ → Except ε α)
    (w w' : Nat → Bool) (scheds : List (List Nat)) (_hC : 1 ≤ C)
    (hs : List.Forall₂ (fun (b : List τ) (s : List Nat) => List.Perm s (List.range b.length))
      (batches C chunks) scheds) :
    (pipeChunksToStream C synth w chunks scheds).2 =
      (pipeChunksToStream C synth w' chunks scheds).2 ∧
    stripFlags (pipeChunksToStream C synth w chunks scheds).1 =
      stripFlags (pipeChunksToStream C synth w' chunks scheds).1 ∧
    ∃ pre, (pipeChunksToStream C synth w chunks scheds).1 = pre ++ [Ev.closeSig] := by
  have h := pipeAux_write_irrelevant synth w w' (batches C chunks) scheds hs 0 [] [] rfl
  simpa [pipeChunksToStream] using h

/-- C3 witness: the amended theorem applied to two one-chunk windows with
all writes failing versus all writes succeeding. -/
theorem c3_sink_behaviour_witness :
    (pipeChunksToStream 1 (fun c => (Except.ok c : Except Unit (List Char))) (fun _ => false)
      [['a'], ['b']] [[0], [0]]).2 =
      (pipeChunksToStream 1 (fun c => (Except.ok c : Except Unit (List Char))) (fun _ => true)
        [['a'], ['b']] [[0], [0]]).2 ∧
    stripFlags (pipeChunksToStream 1 (fun c => (Except.ok c : Except Unit (List Char)))
        (fun _ => false) [['a'], ['b']] [[0], [0]]).1 =
      stripFlags (pipeChunksToStream 1 (fun c => (Except.ok c : Except Unit (List Char)))
        (fun _ => true) [['a'], ['b']] [[0], [0]]).1 ∧
    ∃ pre, (pipeChunksToStream 1 (fun c => (Except.ok c : Except Unit (List Char)))
      (fun _ => false) [['a'], ['b']] [[0], [0]]).1 = pre ++ [Ev.closeSig] :=
  c3_sink_behaviour [['a'], ['b']] 1 (fun c => (Except.ok c : Except Unit (List Char)))
    (fun _ => false) (fun _ => true) [[0], [0]] (by decide)
    (by refine List.Forall₂.cons ?_ (List.Forall₂.cons ?_ List.Forall₂.nil) <;> decide)

/-- C6: in buffered mode, if the synthesis of any chunk fails, the caller
receives an error result and no payload list is returned — including the
payloads of windows that had already resolved before the failure. -/
theorem c6_buffered_no_partial (chunks : List τ) (C : Nat) (synth : τ → Except ε α)
    (scheds : List (List Nat)) (c : τ) (e : ε) (hC : 1 ≤ C)
    (hs : List.Forall₂ (fun (b : List τ) (s : List Nat) => List.Perm s (List.range b.length))
      (batches C chunks) scheds)
    (hc : c ∈ chunks) (he : synth c = Except.error e) :
    ∃ e2, (getVoice C synth chunks scheds).2 = some (Except.error e2) ∧
      ∀ l : List α, (getVoice C synth chunks scheds).2 ≠ some (Except.ok l) := by
  have hmem : c ∈ (batches C chunks).flatten := by
    rw [batches_flatten C hC]
    exact hc
  rcases List.mem_flatten.mp hmem with ⟨b, hb, hcb⟩
  rcases getVoiceAux_error synth (batches C chunks) scheds hs ⟨b, hb, c, hcb, e, he⟩ [] []
    with ⟨e2, he2⟩
  refine ⟨e2, he2, ?_⟩
  intro l hl
  rw [getVoice] at hl
  rw [he2] at hl
  simp at hl

/-- C6 witness: two chunks in one window (completing out of order) where
the second chunk fails. -/
theorem c6_buffered_no_partial_witness :
    ∃ e2, (getVoice 2 (fun c => if c = ['b'] then Except.error 0 else Except.ok c)
        [['a'], ['b']] [[1, 0]]).2 = some (Except.error e2) ∧
      ∀ l : List (List Char),
        (getVoice 2 (fun c => if c = ['b'] then Except.error 0 else Except.ok c)
          [['a'], ['b']] [[1, 0]]).2 ≠ some (Except.ok l) :=
  c6_buffered_no_partial [['a'], ['b']] 2
    (fun c => if c = ['b'] then Except.error 0 else Except.ok c) [[1, 0]] ['b'] 0
    (by decide)
    (List.Forall₂.cons (by decide) List.Forall₂.nil)
    (by decide) rfl

end Orchestrator

section Credential

/-- A provider credential as cached by `getEndpoint`: the opaque endpoint
payload returned by the handshake is identified by `id`, and `exp` is the
token expiry instant decoded from the JWT claims (seconds). -/
structure Cred where
  id : Nat
  exp : Int
deriving DecidableEq

/-- The refresh lead time `TOKEN_REFRESH_BEFORE_EXPIRY = 5 * 60` seconds. -/
def TOKEN_REFRESH_BEFORE_EXPIRY : Int := 5 * 60

/-- Sequential big-step model of `getEndpoint`: given the current time
`now`, the cached credential (`none` when `tokenInfo` is empty) and the
outcome the handshake would have (`none` when the fetch or the JWT decode
throws), returns the credential handed to the caller or the terminal
error, together with the new cache contents. -/
def getEndpoint (now : Int) (cache : Option Cred) (handshake : Option Cred) :
    Except Unit Cred × Option Cred :=
  match cache with
  | some c =>
    if now < c.exp - TOKEN_REFRESH_BEFORE_EXPIRY then (Except.ok c, some c)
    else
      match handshake with
      | some d => (Except.ok d, some d)
      | none => (Except.ok c, some c)
  | none =>
    match handshake with
    | some d => (Except.ok d, some d)
    | none => (Except.error (), none)

/-- C5 counterexample: at time 1000 with an empty cache, a successful
refresh can return a credential whose expiry 1100 is already inside the
5-minute skew. The caller receives it even though it is not currently
valid (1000 < 1100 - 300 fails) and it is not a stale prior kept after a
refresh failure (the handshake succeeded and no prior existed), so the
claimed invariant does not hold as stated. -/
theorem c5_counterexample :
    (getEndpoint 1000 none (some ⟨0, 1100⟩)).1 = Except.ok ⟨0, 1100⟩ ∧
    ¬((1000 : Int) < 1100 - TOKEN_REFRESH_BEFORE_EXPIRY) ∧
    (some (⟨0, 1100⟩ : Cred) : Option Cred) ≠ none := by
  refine ⟨rfl, by decide, by decide⟩

/-- C5 amended: every credential returned is either the cached one while
still valid, or the credential just obtained from a successful refresh
(whose expiry the code does not validate), or — on refresh failure with a
prior cached credential — that stale prior; a refresh failure with a prior
never surfaces as an error to the caller, and the only terminal error is a
refresh failure with no prior credential. -/
theorem c5_credential_trichotomy (now : Int) (cache handshake : Option Cred) (c p : Cred) :
    ((getEndpoint now cache handshake).1 = Except.ok c →
      ((cache = some c ∧ now < c.exp - TOKEN_REFRESH_BEFORE_EXPIRY) ∨
        handshake = some c ∨ (handshake = none ∧ cache = some c))) ∧
    (handshake = none → cache = some p → (getEndpoint now cache handshake).1 = Except.ok p) ∧
    ((getEndpoint now cache handshake).1 = Except.error () ↔ (cache = none ∧ handshake = none)) := by
  refine ⟨?_, ?_, ?_⟩
  · intro hok
    cases cache with
    | none =>
      cases handshake with
      | none => simp [getEndpoint] at hok
      | some d =>
        simp [getEndpoint] at hok
        exact Or.inr (Or.inl (by rw [hok]))
    | some cc =>
      by_cases hv : now < cc.exp - TOKEN_REFRESH_BEFORE_EXPIRY
      · simp [getEndpoint, hv] at hok
        exact Or.inl ⟨by rw [hok], by rw [← hok]; exact hv⟩
      · cases handshake with
        | some d =>
          simp [getEndpoint, hv] at hok
          exact Or.inr (Or.inl (by rw [hok]))
        | none =>
          simp [getEndpoint, hv] at hok
          exact Or.inr (Or.inr ⟨rfl, by rw [hok]⟩)
  · intro h1 h2
    subst h1
    subst h2
    by_cases hv : now < p.exp - TOKEN_REFRESH_BEFORE_EXPIRY <;> simp [getEndpoint, hv]
  · constructor
    · intro herr
      cases cache with
      | none =>
        cases handshake with
        | none => exact ⟨rfl, rfl⟩
        | some d => simp [getEndpoint] at herr
      | some cc =>
        by_cases hv : now < cc.exp - TOKEN_REFRESH_BEFORE_EXPIRY
        · simp [getEndpoint, hv] at herr
        · cases handshake with
          | some d => simp [getEndpoint, hv] at herr
          | none => simp [getEndpoint, hv] at herr
    · rintro ⟨h1, h2⟩
      subst h1
      subst h2
      rfl

/-- C5 witness: stale fallback at time 1000 with cached expiry 400 and a
failing handshake — the prior credential is served, no error. -/
theorem c5_credential_trichotomy_witness :
    ((getEndpoint 1000 (some ⟨1, 400⟩) none).1 = Except.ok ⟨1, 400⟩ →
      (((some (⟨1, 400⟩ : Cred) : Option Cred) = some ⟨1, 400⟩ ∧
          (1000 : Int) < (⟨1, 400⟩ : Cred).exp - TOKEN_REFRESH_BEFORE_EXPIRY) ∨
        (none : Option Cred) = some ⟨1, 400⟩ ∨
        ((none : Option Cred) = none ∧ (some (⟨1, 400⟩ : Cred) : Option Cred) = some ⟨1, 400⟩))) ∧
    ((none : Option Cred) = none → (some (⟨1, 400⟩ : Cred) : Option Cred) = some ⟨1, 400⟩ →
      (getEndpoint 1000 (some ⟨1, 400⟩) none).1 = Except.ok ⟨1, 400⟩) ∧
    ((getEndpoint 1000 (some ⟨1, 400⟩) none).1 = Except.error () ↔
      ((some (⟨1, 400⟩ : Cred) : Option Cred) = none ∧ (none : Option Cred) = none)) :=
  c5_credential_trichotomy 1000 (some ⟨1, 400⟩) none ⟨1, 400⟩ ⟨1, 400⟩

/-- Program counter of one caller in `getEndpoint`: `start` is before the
synchronous validity check, `refreshing` is parked at the awaited handshake
(sign plus fetch plus JWT decode), `done` has returned. -/
inductive CPc where
  | start
  | refreshing
  | done
deriving DecidableEq

/-- Shared credential-manager state plus the control state of each caller
and the number of handshake calls issued so far. -/
structure CMState where
  cache : Option Cred
  handshakes : Nat
  pcs : List CPc
deriving DecidableEq

/-- The synchronous cache-validity check at the top of `getEndpoint`. -/
def cacheValid (now : Int) (cache : Option Cred) : Bool :=
  match cache with
  | some c => decide (now < c.exp - TOKEN_REFRESH_BEFORE_EXPIRY)
  | none => false

/-- One interleaving step: caller `i` advances once. From `start` the
caller runs the synchronous check and either returns the cached credential
or proceeds to the handshake (the code between the check and the cache
update contains awaited fetches, so other callers can run in between);
from `refreshing` the awaited handshake completes: one handshake call is
counted, the fresh credential (expiry `freshExp`) is installed in the
shared cache, and the caller returns. -/
def cmStep (now freshExp : Int) (s : CMState) (i : Nat) : CMState :=
  match s.pcs[i]? with
  | some CPc.start =>
    if cacheValid now s.cache then { s with pcs := s.pcs.set i CPc.done }
    else { s with pcs := s.pcs.set i CPc.refreshing }
  | some CPc.refreshing =>
    { cache := some ⟨s.handshakes, freshExp⟩, handshakes := s.handshakes + 1,
      pcs := s.pcs.set i CPc.done }
  | _ => s

/-- Run an interleaving schedule of caller steps. -/
def cmRun (now freshExp : Int) (s : CMState) (sched : List Nat) : CMState :=
  sched.foldl (cmStep now freshExp) s

/-- C9 counterexample: two callers and an empty credential cache. Under the
interleaving check-A, check-B, refresh-A, refresh-B — reachable because the
expiry check and the cache update are separated by awaited fetches and no
mutual exclusion exists — two handshake calls are issued, not exactly one. -/
theorem c9_counterexample :
    (cmRun 0 1000 ⟨none, 0, [CPc.start, CPc.start]⟩ [0, 1, 0, 1]).handshakes = 2 := by
  decide

/-- C9 amended: a caller that observes a valid cached credential issues no
handshake, and strictly sequential callers issue exactly one handshake for
an absent credential (the second caller reuses the freshly cached one);
but the check-expiry-then-refresh sequence is not mutually exclusive:
two callers that both pass the check before either refresh completes each
issue a handshake, so duplicate in-flight handshakes are possible. -/
theorem c9_no_mutual_exclusion (now freshExp e : Int)
    (hfresh : now < freshExp - TOKEN_REFRESH_BEFORE_EXPIRY)
    (hvalid : now < e - TOKEN_REFRESH_BEFORE_EXPIRY) :
    (cmRun now freshExp ⟨some ⟨0, e⟩, 0, [CPc.start, CPc.start]⟩ [0, 1]).handshakes = 0 ∧
    (cmRun now freshExp ⟨none, 0, [CPc.start, CPc.start]⟩ [0, 0, 1]).handshakes = 1 ∧
    (cmRun now freshExp ⟨none, 0, [CPc.start, CPc.start]⟩ [0, 1, 0, 1]).handshakes = 2 := by
  refine ⟨?_, ?_, ?_⟩
  · simp [cmRun, cmStep, cacheValid, hvalid]
  · simp [cmRun, cmStep, cacheValid, hfresh]
  · simp [cmRun, cmStep, cacheValid]

/-- C9 witness: the amended theorem at time 0 with fresh and cached
expiries 1000. -/
theorem c9_no_mutual_exclusion_witness :
    (cmRun 0 1000 ⟨some ⟨0, 1000⟩, 0, [CPc.start, CPc.start]⟩ [0, 1]).handshakes = 0 ∧
    (cmRun 0 1000 ⟨none, 0, [CPc.start, CPc.start]⟩ [0, 0, 1]).handshakes = 1 ∧
    (cmRun 0 1000 ⟨none, 0, [CPc.start, CPc.start]⟩ [0, 1, 0, 1]).handshakes = 2 :=
  c9_no_mutual_exclusion 0 1000 1000 (by decide) (by decide)

end Credential

section Handler

/-- The fixed alias table `OPENAI_VOICE_MAP` of the speech handler. -/
def OPENAI_VOICE_MAP (k : String) : Option String :=
  if k = "shimmer" then some "zh-CN-XiaoxiaoNeural"
  else if k = "alloy" then some "zh-CN-YunyangNeural"
  else if k = "fable" then some "zh-CN-YunjianNeural"
  else if k = "onyx" then some "zh-CN-XiaoyiNeural"
  else if k = "nova" then some "zh-CN-YunxiNeural"
  else if k = "echo" then some "zh-CN-liaoning-XiaobeiNeural"
  else none

/-- JS `String.replace` with a plain-string pattern and empty replacement:
remove the first occurrence of `pat` only. -/
def dropFirstOcc (pat : List Char) : List Char → List Char
  | [] => []
  | c :: rest =>
    if List.isPrefixOf pat (c :: rest) then (c :: rest).drop pat.length
    else c :: dropFirstOcc pat rest

/-- The handler expression `model.replace("tts-1-", "")`. -/
def stripModelAlias (m : String) : String :=
  ⟨dropFirstOcc "tts-1-".toList m.toList⟩

/-- JS truthiness of a string value. -/
def jsTruthy (s : String) : Bool := s ≠ ""

/-- Voice resolution of `handleSpeechRequest`. For the `model` and `voice`
arguments, `none` means the field is absent from the JSON body
(undefined), so the destructuring defaults "tts-1" and "shimmer" apply.
`modelVoice` is the table lookup guarded by `!voice`; the result is
`modelVoice || voice`, and `none` is returned when the handler rejects
with the 400 invalid-voice error (`!finalVoice`). -/
def resolveFinalVoice (model voice : Option String) : Option String :=
  let m := model.getD "tts-1"
  let v := voice.getD "shimmer"
  let modelVoice : Option String :=
    if !(jsTruthy v) then OPENAI_VOICE_MAP (stripModelAlias m) else none
  let finalVoice : String :=
    match modelVoice with
    | some mv => if jsTruthy mv then mv else v
    | none => v
  if jsTruthy finalVoice then some finalVoice else none

/-- Error payload of `errorResponse` (the human-readable message is
elided; status and machine-readable code are what the claims constrain). -/
structure ErrResp where
  status : Nat
  code : String
deriving DecidableEq

/-- The parsed JSON request body fields used by the handler; `none` means
the field is absent. -/
structure RequestBody where
  model : Option String
  input : Option String
  voice : Option String
  stream : Bool
  concurrency : Nat
  chunk_size : Nat

/-- JS falsiness of the `input` field: `if (!requestBody.input)` rejects
both an absent field (undefined) and the empty string. -/
def jsFalsyInput : Option String → Bool
  | none => true
  | some s => s = ""

def invalidRequestError : ErrResp := ⟨400, "invalid_request_error"⟩

def ttsGenerationError : ErrResp := ⟨500, "tts_generation_error"⟩

/-- The synthesis plan assembled by `handleSpeechRequest` once validation
passes (prosody parameters are elided — no claim mentions them). -/
structure SynthPlan where
  voice : String
  chunks : List (List Char)
  stream : Bool
  concurrency : Nat

/-- Validation part of `handleSpeechRequest`: reject missing or empty
input with 400 invalid_request_error, clean the text (`clean` abstracts
the `cleanText` normalizer, which no claim constrains), resolve the voice
(rejecting a falsy result with the same 400 code), and chunk the cleaned
text. -/
def handleSpeech (clean : List Char → List Char) (body : RequestBody) :
    Except ErrResp SynthPlan :=
  if jsFalsyInput body.input then Except.error invalidRequestError
  else
    match resolveFinalVoice body.model body.voice with
    | none => Except.error invalidRequestError
    | some fv =>
      Except.ok
        { voice := fv,
          chunks := smartChunkText (clean (body.input.getD "").toList) body.chunk_size,
          stream := body.stream, concurrency := body.concurrency }

/-- Full request path after JSON parsing: a validation failure returns the
error response immediately — the empty trace records that no provider call
is issued — otherwise the plan runs in streamed or buffered mode. The
first component is the response (`Except.ok none` for a streaming
response, `Except.ok (some payloads)` for a buffered one); `none` models a
run that never settles, impossible under valid schedules. -/
def serve {α ε : Type} (clean : List Char → List Char)
    (synth : List Char → Except ε α) (writeOk : Nat → Bool)
    (scheds : List (List Nat)) (body : RequestBody) :
    Option (Except ErrResp (Option (List α))) × List (Ev (List Char) α) :=
  match handleSpeech clean body with
  | Except.error e => (some (Except.error e), [])
  | Except.ok plan =>
    if plan.stream then
      match pipeChunksToStream plan.concurrency synth writeOk plan.chunks scheds with
      | (tr, none) => (none, tr)
      | (tr, some (Except.ok _)) => (some (Except.ok none), tr)
      | (tr, some (Except.error _)) => (some (Except.error ttsGenerationError), tr)
    else
      match getVoice plan.concurrency synth plan.chunks scheds with
      | (tr, none) => (none, tr)
      | (tr, some (Except.ok l)) => (some (Except.ok (some l)), tr)
      | (tr, some (Except.error _)) => (some (Except.error ttsGenerationError), tr)

/-- C2: the divergence between the claim (and the README) and the code.
With `voice` absent the destructuring default "shimmer" applies, `!voice`
is false, and the alias table is never consulted: model "tts-1-alloy"
resolves to "shimmer" rather than to the table entry "zh-CN-YunyangNeural"
that the table does hold for "alloy", and an unmapped suffix ("tts-1-zzz")
with no explicit voice is accepted instead of rejected with 400. The table
is reachable only when `voice` is present but falsy (empty string). -/
theorem c2_voice_resolution_divergence :
    resolveFinalVoice (some "tts-1-alloy") none = some "shimmer" ∧
    OPENAI_VOICE_MAP "alloy" = some "zh-CN-YunyangNeural" ∧
    resolveFinalVoice (some "tts-1-zzz") none = some "shimmer" ∧
    resolveFinalVoice (some "tts-1-alloy") (some "") = some "zh-CN-YunyangNeural" ∧
    resolveFinalVoice (some "tts-1-zzz") (some "") = none := by
  refine ⟨rfl, rfl, rfl, rfl, rfl⟩

/-- C10: a request whose `input` field is present but equal to the empty
string is rejected exactly like a request with no `input` at all — the
same 400 response with code invalid_request_error — and no provider call
is issued (the trace is empty). -/
theorem c10_empty_input {α ε : Type} (clean : List Char → List Char)
    (synth : List Char → Except ε α) (writeOk : Nat → Bool)
    (scheds : List (List Nat)) (body : RequestBody)
    (h : body.input = some "") :
    serve clean synth writeOk scheds body =
      (some (Except.error invalidRequestError), []) ∧
    serve clean synth writeOk scheds { body with input := none } =
      serve clean synth writeOk scheds body := by
  have h1 : jsFalsyInput body.input = true := by rw [h]; rfl
  have h2 : jsFalsyInput (none : Option String) = true := rfl
  constructor
  · simp [serve, handleSpeech, h1]
  · simp [serve, handleSpeech, h1, h2]

/-- C10 witness: a body with empty input (model "tts-1", voice "x"). -/
theorem c10_empty_input_witness :
    serve (fun l => l) (fun c => (Except.ok c : Except Unit (List Char))) (fun _ => true) []
      ⟨some "tts-1", some "", some "x", false, 10, 300⟩ =
      (some (Except.error invalidRequestError), []) ∧
    serve (fun l => l) (fun c => (Except.ok c : Except Unit (List Char))) (fun _ => true) []
      { (⟨some "tts-1", some "", some "x", false, 10, 300⟩ : RequestBody) with input := none } =
      serve (fun l => l) (fun c => (Except.ok c : Except Unit (List Char))) (fun _ => true) []
        ⟨some "tts-1", some "", some "x", false, 10, 300⟩ :=
  c10_empty_input (fun l => l) (fun c => (Except.ok c : Except Unit (List Char))) (fun _ => true)
    [] ⟨some "tts-1", some "", some "x", false, 10, 300⟩ rfl

end Handler
